import Mathlib

/-!
Verification of the docpup acquisition and normalization pipeline.

JavaScript strings are modelled as lists of characters (`Str`); each
definition below is a shallow embedding of the corresponding function in
the repository's TypeScript sources (`src/url-fetcher` / `src/sitemap` /
`src/git` modules concatenated in `src/utils.ts`, and `src/preprocess.ts`).
External effects (HTTP fetches, git subprocesses, the file system) are
modelled by explicit environment records supplying each call's outcome.
-/

namespace Docpup

/-- JavaScript strings, modelled as lists of UTF-16-ish characters. -/
abbrev Str := List Char

/-- Embed a Lean string literal as a `Str`. -/
def str (s : String) : Str := s.data

/-- Whitespace test used by the model of JS `String.prototype.trim`. -/
def isWs (c : Char) : Bool := c = ' ' ∨ c = '\t' ∨ c = '\n' ∨ c = '\r'

/-- Model of JS `String.prototype.trim`. -/
def trimStr (s : Str) : Str :=
  ((s.dropWhile isWs).reverse.dropWhile isWs).reverse

/-- Lexicographic comparison on code units: the default JS `Array.sort`
comparator on strings. -/
def lexLe : Str → Str → Bool
  | [], _ => true
  | _ :: _, [] => false
  | a :: as, b :: bs => if a = b then lexLe as bs else decide (a < b)

/-- Insert into a `lexLe`-sorted list, keeping it sorted. -/
def insertLex (a : Str) : List Str → List Str
  | [] => [a]
  | b :: bs => if lexLe a b then a :: b :: bs else b :: insertLex a bs

/-- Model of JS `Array.prototype.sort` with the default comparator
(insertion sort; any correct sort agrees on the result). -/
def sortLex : List Str → List Str
  | [] => []
  | a :: as => insertLex a (sortLex as)

/-- Longest common prefix of two character lists. -/
def commonOf : Str → Str → Str
  | a :: as, b :: bs => if a = b then a :: commonOf as bs else []
  | _, _ => []

/-- Index of the first occurrence of `needle` in `haystack`
(JS `String.prototype.indexOf`), `none` when absent. -/
def indexOfSub (haystack needle : Str) : Option Nat :=
  if needle.isPrefixOf haystack then some 0
  else
    match haystack with
    | [] => none
    | _ :: t => (indexOfSub t needle).map (· + 1)

/-- Index of the last occurrence of `needle` in `haystack`
(JS `String.prototype.lastIndexOf`), `none` when absent. -/
def lastIndexOfSub (haystack needle : Str) : Option Nat :=
  (((List.range (haystack.length + 1)).filter
    (fun i => needle.isPrefixOf (haystack.drop i)))).getLast?

/-- The five separator tokens recognized by the affix stripper
(`" - "`, `" | "`, `": "`, spaced em dash, spaced en dash). -/
def separators : List Str :=
  [str " - ", str " | ", str ": ", str " — ", str " – "]

/-- Function `findCommonPrefix` from the url-fetcher module: sort the titles, take
the raw character-level common prefix of the lexicographic first and last
entries, then keep the longest candidate that ends at a separator
occurrence (the rightmost occurrence of each separator). -/
def findCommonPrefix (strings : List Str) : Str :=
  if strings.length ≤ 1 then []
  else
    let sorted := sortLex strings
    let first := sorted.headD []
    let last := sorted.getLastD []
    let raw := commonOf first last
    separators.foldl
      (fun best sep =>
        match lastIndexOfSub raw sep with
        | some idx =>
            let candidate := raw.take (idx + sep.length)
            if best.length < candidate.length then candidate else best
        | none => best)
      []

/-- Function `findCommonSuffix` from the url-fetcher module: reverse every title,
sort, take the common prefix of first and last, un-reverse, then keep the
longest candidate beginning at a separator occurrence (the leftmost
occurrence of each separator). -/
def findCommonSuffix (strings : List Str) : Str :=
  if strings.length ≤ 1 then []
  else
    let reversed := strings.map List.reverse
    let sorted := sortLex reversed
    let first := sorted.headD []
    let last := sorted.getLastD []
    let raw := (commonOf first last).reverse
    separators.foldl
      (fun best sep =>
        match indexOfSub raw sep with
        | some idx =>
            let candidate := raw.drop idx
            if best.length < candidate.length then candidate else best
        | none => best)
      []

/-- Function `stripCommonAffixes` from the url-fetcher module: strip the
separator-aligned common prefix and suffix from every title, trim, and
fall back to the original title when stripping empties it. -/
def stripCommonAffixes (titles : List Str) : List Str :=
  if titles.length ≤ 1 then titles
  else
    let prefix_ := findCommonPrefix titles
    let suffix_ := findCommonSuffix titles
    titles.map (fun t =>
      let r0 := t
      let r1 :=
        if prefix_ ≠ [] ∧ prefix_.isPrefixOf r0 then r0.drop prefix_.length
        else r0
      let r2 :=
        if suffix_ ≠ [] ∧ suffix_.isSuffixOf r1 then
          r1.take (r1.length - suffix_.length)
        else r1
      let trimmed := trimStr r2
      if trimmed = [] then t else trimmed)

/-- Lowercase alphanumeric test (the character class kept by `slugify`). -/
def isSlugChar (c : Char) : Bool :=
  ('a' ≤ c ∧ c ≤ 'z') ∨ ('0' ≤ c ∧ c ≤ '9')

/-- Model of `.replace(/[^a-z0-9]+/g, "-")`: collapse each maximal run of
non-alphanumeric characters into a single hyphen. -/
def collapseNonSlug : Str → Str
  | [] => []
  | c :: cs =>
      if isSlugChar c then c :: collapseNonSlug cs
      else
        match collapseNonSlug cs with
        | '-' :: rest => '-' :: rest
        | rest => '-' :: rest

/-- Function `slugify` from the url-fetcher module: lowercase, collapse
non-alphanumeric runs to hyphens, trim hyphens, truncate to 100
characters, and substitute `"page"` when empty. -/
def slugify (text : Str) : Str :=
  let lowered := text.map Char.toLower
  let collapsed := collapseNonSlug lowered
  let trimmed :=
    ((collapsed.dropWhile (· = '-')).reverse.dropWhile (· = '-')).reverse
  let sliced := trimmed.take 100
  if sliced = [] then str "page" else sliced

/-- Decimal rendering of a batch index, as interpolated by
`` `${slug}-${i}` `` in the collision-resolution loop. -/
def natStr (n : Nat) : Str := (Nat.repr n).data

/-- Phase 2 of `fetchUrlSource` (the collision-resolution loop): slugify
each stripped title in input order, append `-<batch index>` when the slug
is already used, record the resulting name, and suffix `.md`. -/
def assignNamesGo : List Str → Nat → List Str → List Str
  | [], _, _ => []
  | title :: rest, i, used =>
      let slug0 := slugify title
      let slug := if slug0 ∈ used then slug0 ++ '-' :: natStr i else slug0
      (slug ++ str ".md") :: assignNamesGo rest (i + 1) (slug :: used)

/-- File names assigned to a list of stripped titles by Phase 2 of
`fetchUrlSource`. -/
def assignNames (strippedTitles : List Str) : List Str :=
  assignNamesGo strippedTitles 0 []

/-- File names produced by `fetchUrlSource` for a batch of page titles:
common-affix stripping followed by the collision-resolution loop. -/
def fileNamesForTitles (titles : List Str) : List Str :=
  assignNames (stripCommonAffixes titles)

/-- C1: the collision-resolution loop of `fetchUrlSource` is claimed to
assign pairwise-distinct base names even when a title's natural slug
equals another slug already augmented with a collision suffix. The code
violates this: on titles slugging to `a`, `a-2`, `a` it assigns
`a.md`, `a-2.md`, `a-2.md` — the augmented name of the third page
duplicates the second page's natural name, contradicting the repository's
own test, which expects `a.md`, `a-2.md`, `a-3.md`. -/
theorem fileNames_duplicate_on_augmented_coincidence :
    fileNamesForTitles [str "a", str "a-2", str "a"] =
      [str "a.md", str "a-2.md", str "a-2.md"] ∧
    ¬ (fileNamesForTitles [str "a", str "a-2", str "a"]).Nodup := by
  decide

/-- C8: common-affix stripping maps
`["Overview - X Docs", "Quickstart - X Docs", "Guide - X Docs"]` to
`["Overview", "Quickstart", "Guide"]`; the raw common affix found by
sorting and comparing the lexicographic first and last entries is the
separator-aligned suffix `" - X Docs"`, and no common prefix is found. -/
theorem stripCommonAffixes_overview_example :
    stripCommonAffixes
        [str "Overview - X Docs", str "Quickstart - X Docs",
          str "Guide - X Docs"] =
      [str "Overview", str "Quickstart", str "Guide"] ∧
    findCommonSuffix
        [str "Overview - X Docs", str "Quickstart - X Docs",
          str "Guide - X Docs"] = str " - X Docs" ∧
    findCommonPrefix
        [str "Overview - X Docs", str "Quickstart - X Docs",
          str "Guide - X Docs"] = [] := by
  refine ⟨by decide, by decide, by decide⟩

/-! ## Sitemap URL filtering (`filterUrls` in the sitemap module) -/

/-- Split a character list on `'/'` (JS `String.prototype.split("/")`). -/
def splitSlash : Str → List Str
  | [] => [[]]
  | c :: cs =>
      if c = '/' then [] :: splitSlash cs
      else
        match splitSlash cs with
        | [] => [[c]]
        | h :: t => (c :: h) :: t

/-- Function `normalizePath` from the sitemap module: drop leading and trailing
runs of `'/'`. -/
def normalizePath (p : Str) : Str :=
  ((p.dropWhile (· = '/')).reverse.dropWhile (· = '/')).reverse

/-- One inclusion rule: a path prefix plus an optional set of opted-in
first-level sub-segment names (`SitemapPathRule` in `types.ts`). -/
structure SitemapPathRule where
  prefix_ : Str
  subs : Option (List Str)
deriving DecidableEq

/-- Model of `new URL(url).pathname` for http/https URLs: `none` models
the constructor throwing on a malformed URL. -/
def urlPathname (url : Str) : Option Str :=
  let parse : Str → Option Str := fun rest =>
    let host := rest.takeWhile (fun c => ¬ (c = '/' ∨ c = '?' ∨ c = '#'))
    if host = [] then none
    else
      match rest.drop host.length with
      | '/' :: tail => some ('/' :: tail.takeWhile (fun c => ¬ (c = '?' ∨ c = '#')))
      | _ => some ['/']
  if (str "https://").isPrefixOf url then parse (url.drop 8)
  else if (str "http://").isPrefixOf url then parse (url.drop 7)
  else none

/-- The per-rule match test inside `filterUrls`: exact prefix match, or
strictly under the prefix with zero or one remaining segments, or first
remaining segment opted in via `subs`. `pre` is the normalized prefix and
`n` the normalized URL path. -/
def ruleMatch (pre : Str) (subs : List Str) (n : Str) : Bool :=
  if n = pre then true
  else if (pre ++ ['/']).isPrefixOf n then
    let rel := n.drop (pre.length + 1)
    let segments := (splitSlash rel).filter (fun seg => !seg.isEmpty)
    match segments with
    | [] => true
    | [_] => true
    | s :: _ :: _ => subs.contains s
  else false

/-- The per-URL keep test inside `filterUrls`: a malformed URL is
excluded; otherwise the rules are OR-combined over the normalized
pathname. -/
def keepUrl (rules : List (Str × List Str)) (url : Str) : Bool :=
  match urlPathname url with
  | none => false
  | some pathname =>
      let normalized := normalizePath pathname
      rules.any (fun r => ruleMatch r.1 r.2 normalized)

/-- Function `filterUrls` from the sitemap module: an empty rule list passes
everything; otherwise keep the URLs matching at least one rule. -/
def filterUrls (urls : List Str) (paths : List SitemapPathRule) : List Str :=
  if paths = [] then urls
  else
    let rules := paths.map (fun p => (normalizePath p.prefix_, p.subs.getD []))
    urls.filter (keepUrl rules)

theorem splitSlash_ne_nil (s : Str) : splitSlash s ≠ [] := by
  induction s with
  | nil => simp [splitSlash]
  | cons c cs ih =>
      simp only [splitSlash]
      split
      · simp
      · match h : splitSlash cs with
        | [] => exact absurd h ih
        | x :: t => simp

theorem splitSlash_noslash (s : Str) (h : ∀ c ∈ s, c ≠ '/') :
    splitSlash s = [s] := by
  induction s with
  | nil => rfl
  | cons c cs ih =>
      have hc : c ≠ '/' := h c (List.mem_cons_self c cs)
      have hcs := ih (fun x hx => h x (List.mem_cons_of_mem c hx))
      simp only [splitSlash, if_neg hc, hcs]

theorem splitSlash_append_slash (a b : Str) (h : ∀ c ∈ a, c ≠ '/') :
    splitSlash (a ++ '/' :: b) = a :: splitSlash b := by
  induction a with
  | nil => simp [splitSlash]
  | cons c cs ih =>
      have hc : c ≠ '/' := h c (List.mem_cons_self c cs)
      have hcs := ih (fun x hx => h x (List.mem_cons_of_mem c hx))
      simp only [List.cons_append, splitSlash, if_neg hc, List.append_eq, hcs]

theorem splitSlash_filter_ne_nil (r : Str) (h : ∃ c ∈ r, c ≠ '/') :
    (splitSlash r).filter (fun seg => !seg.isEmpty) ≠ [] := by
  induction r with
  | nil => simp at h
  | cons c cs ih =>
      by_cases hc : c = '/'
      · subst hc
        have hcs : ∃ x ∈ cs, x ≠ '/' := by
          rcases h with ⟨x, hx, hne⟩
          rcases List.mem_cons.mp hx with h1 | h1
          · exact absurd h1 hne
          · exact ⟨x, h1, hne⟩
        simpa [splitSlash] using ih hcs
      · simp only [splitSlash, if_neg hc]
        match hsp : splitSlash cs with
        | [] => exact absurd hsp (splitSlash_ne_nil cs)
        | x :: t => simp

theorem ruleMatch_self (pre : Str) (subs : List Str) :
    ruleMatch pre subs pre = true := by
  simp [ruleMatch]

theorem append_cons_ne_self (pre : Str) (c : Char) (s : Str) :
    pre ++ c :: s ≠ pre := by
  intro h
  have := List.append_right_eq_self.mp h
  simp at this

theorem isPrefixOf_append_self (a b : Str) : a.isPrefixOf (a ++ b) = true := by
  rw [List.isPrefixOf_iff_prefix]
  exact List.prefix_append a b

theorem drop_append_cons (pre : Str) (c : Char) (s : Str) :
    (pre ++ c :: s).drop (pre.length + 1) = s := by
  have h : (pre ++ [c]).length = pre.length + 1 := by simp
  calc (pre ++ c :: s).drop (pre.length + 1)
      = ((pre ++ [c]) ++ s).drop (pre.length + 1) := by simp
    _ = s := List.drop_left' h

theorem ruleMatch_child (pre : Str) (subs : List Str) (s : Str)
    (hs : s ≠ []) (hns : ∀ c ∈ s, c ≠ '/') :
    ruleMatch pre subs (pre ++ '/' :: s) = true := by
  have hne := append_cons_ne_self pre '/' s
  have hpre : (pre ++ ['/']).isPrefixOf (pre ++ '/' :: s) = true := by
    have h2 : pre ++ '/' :: s = (pre ++ ['/']) ++ s := by simp
    rw [h2]
    exact isPrefixOf_append_self _ _
  have hemp : s.isEmpty = false := by
    cases s with
    | nil => exact absurd rfl hs
    | cons x t => rfl
  simp only [ruleMatch, if_neg hne, hpre, if_pos rfl, drop_append_cons,
    splitSlash_noslash s hns, List.filter_cons, hemp]
  simp

theorem ruleMatch_sub_deep (pre : Str) (subs : List Str) (s r : Str)
    (hsub : s ∈ subs) (hs : s ≠ []) (hns : ∀ c ∈ s, c ≠ '/') :
    ruleMatch pre subs (pre ++ '/' :: (s ++ '/' :: r)) = true := by
  have hne := append_cons_ne_self pre '/' (s ++ '/' :: r)
  have hpre : (pre ++ ['/']).isPrefixOf (pre ++ '/' :: (s ++ '/' :: r)) = true := by
    have h2 : pre ++ '/' :: (s ++ '/' :: r) = (pre ++ ['/']) ++ (s ++ '/' :: r) := by
      simp
    rw [h2]
    exact isPrefixOf_append_self _ _
  have hemp : s.isEmpty = false := by
    cases s with
    | nil => exact absurd rfl hs
    | cons x t => rfl
  simp only [ruleMatch, if_neg hne, hpre, if_pos rfl, drop_append_cons,
    splitSlash_append_slash s r hns, List.filter_cons, hemp,
    Bool.not_false, if_true]
  cases hsp : (splitSlash r).filter (fun seg => !seg.isEmpty) with
  | nil => simp
  | cons x t => simpa using List.elem_eq_true_of_mem hsub

theorem ruleMatch_notsub_deep (pre : Str) (subs : List Str) (s r : Str)
    (hsub : s ∉ subs) (hs : s ≠ []) (hns : ∀ c ∈ s, c ≠ '/')
    (hr : ∃ c ∈ r, c ≠ '/') :
    ruleMatch pre subs (pre ++ '/' :: (s ++ '/' :: r)) = false := by
  have hne := append_cons_ne_self pre '/' (s ++ '/' :: r)
  have hpre : (pre ++ ['/']).isPrefixOf (pre ++ '/' :: (s ++ '/' :: r)) = true := by
    have h2 : pre ++ '/' :: (s ++ '/' :: r) = (pre ++ ['/']) ++ (s ++ '/' :: r) := by
      simp
    rw [h2]
    exact isPrefixOf_append_self _ _
  have hemp : s.isEmpty = false := by
    cases s with
    | nil => exact absurd rfl hs
    | cons x t => rfl
  simp only [ruleMatch, if_neg hne, hpre, if_pos rfl, drop_append_cons,
    splitSlash_append_slash s r hns, List.filter_cons, hemp,
    Bool.not_false, if_true]
  cases hsp : (splitSlash r).filter (fun seg => !seg.isEmpty) with
  | nil => exact absurd hsp (splitSlash_filter_ne_nil r hr)
  | cons x t => simpa using hsub

theorem ruleMatch_miss (pre : Str) (subs : List Str) (n : Str)
    (hne : n ≠ pre) (hpre : (pre ++ ['/']).isPrefixOf n = false) :
    ruleMatch pre subs n = false := by
  simp [ruleMatch, if_neg hne, hpre]

/-- The inclusion rule of the worked filtering example:
`prefix docs/en/api`, `subs [sdks]`. -/
def apiRule : SitemapPathRule :=
  { prefix_ := str "docs/en/api", subs := some [str "sdks"] }

theorem filterUrls_singleton (u p : Str) (rule : SitemapPathRule)
    (hp : urlPathname u = some p) :
    filterUrls [u] [rule] =
      if ruleMatch (normalizePath rule.prefix_) (rule.subs.getD [])
          (normalizePath p) then [u] else [] := by
  have hr : ([rule] : List SitemapPathRule) ≠ [] := by simp
  simp only [filterUrls, if_neg hr, List.map_cons, List.map_nil]
  cases hm : ruleMatch (normalizePath rule.prefix_) (rule.subs.getD [])
      (normalizePath p) with
  | false => simp [List.filter, keepUrl, hp, hm]
  | true => simp [List.filter, keepUrl, hp, hm]

theorem normalizePath_api : normalizePath (str "docs/en/api") = str "docs/en/api" := by
  decide

/-- C6: under the rule `prefix docs/en/api, subs [sdks]`, filtering keeps a
URL whose normalized path equals `docs/en/api` exactly, every URL exactly
one segment below it, and every URL whose first segment below the prefix
is `sdks` (at any depth); it excludes URLs whose first segment below the
prefix is `skills` at depth at least two and all URLs under
`docs/en/guides`; malformed URLs are excluded; and the keep test
OR-combines rule lists. -/
theorem filterUrls_api_rule_semantics :
    (∀ u p, urlPathname u = some p → normalizePath p = str "docs/en/api" →
      filterUrls [u] [apiRule] = [u]) ∧
    (∀ u p s, urlPathname u = some p →
      normalizePath p = str "docs/en/api/" ++ s → s ≠ [] →
      (∀ c ∈ s, c ≠ '/') → filterUrls [u] [apiRule] = [u]) ∧
    (∀ u p r, urlPathname u = some p →
      normalizePath p = str "docs/en/api/sdks/" ++ r →
      filterUrls [u] [apiRule] = [u]) ∧
    (∀ u p r, urlPathname u = some p →
      normalizePath p = str "docs/en/api/skills/" ++ r →
      (∃ c ∈ r, c ≠ '/') → filterUrls [u] [apiRule] = []) ∧
    (∀ u p r, urlPathname u = some p →
      normalizePath p = str "docs/en/guides" ++ r →
      filterUrls [u] [apiRule] = []) ∧
    (∀ u rules, urlPathname u = none →
      filterUrls [u] (apiRule :: rules) = []) ∧
    (∀ rs₁ rs₂ u, keepUrl (rs₁ ++ rs₂) u = (keepUrl rs₁ u || keepUrl rs₂ u)) := by
  refine ⟨?_, ?_, ?_, ?_, ?_, ?_, ?_⟩
  · intro u p hp hn
    rw [filterUrls_singleton u p apiRule hp]
    simp only [apiRule, Option.getD_some, normalizePath_api, hn]
    rw [ruleMatch_self]
    simp
  · intro u p s hp hn hs hns
    rw [filterUrls_singleton u p apiRule hp]
    simp only [apiRule, Option.getD_some, normalizePath_api, hn]
    have hshape : str "docs/en/api/" ++ s = str "docs/en/api" ++ '/' :: s := by
      have h0 : str "docs/en/api/" = str "docs/en/api" ++ ['/'] := by decide
      rw [h0, List.append_assoc]
      rfl
    rw [hshape, ruleMatch_child _ _ s hs hns]
    simp
  · intro u p r hp hn
    rw [filterUrls_singleton u p apiRule hp]
    simp only [apiRule, Option.getD_some, normalizePath_api, hn]
    have hshape : str "docs/en/api/sdks/" ++ r =
        str "docs/en/api" ++ '/' :: (str "sdks" ++ '/' :: r) := by
      have h0 : str "docs/en/api/sdks/" =
          str "docs/en/api" ++ '/' :: (str "sdks" ++ ['/']) := by decide
      rw [h0]
      simp
    rw [hshape, ruleMatch_sub_deep _ _ (str "sdks") r (by decide) (by decide)
      (by decide)]
    simp
  · intro u p r hp hn hr
    rw [filterUrls_singleton u p apiRule hp]
    simp only [apiRule, Option.getD_some, normalizePath_api, hn]
    have hshape : str "docs/en/api/skills/" ++ r =
        str "docs/en/api" ++ '/' :: (str "skills" ++ '/' :: r) := by
      have h0 : str "docs/en/api/skills/" =
          str "docs/en/api" ++ '/' :: (str "skills" ++ ['/']) := by decide
      rw [h0]
      simp
    rw [hshape, ruleMatch_notsub_deep _ _ (str "skills") r (by decide)
      (by decide) (by decide) hr]
    simp
  · intro u p r hp hn
    rw [filterUrls_singleton u p apiRule hp]
    simp only [apiRule, Option.getD_some, normalizePath_api, hn]
    have hne : str "docs/en/guides" ++ r ≠ str "docs/en/api" := by
      intro h
      have hlen := congrArg List.length h
      rw [List.length_append] at hlen
      have l1 : (str "docs/en/guides").length = 14 := by decide
      have l2 : (str "docs/en/api").length = 11 := by decide
      rw [l1, l2] at hlen
      omega
    have hpre : (str "docs/en/api" ++ ['/']).isPrefixOf
        (str "docs/en/guides" ++ r) = false := by
      rw [Bool.eq_false_iff]
      intro hb
      have hpfx := List.isPrefixOf_iff_prefix.mp hb
      have e1 : str "docs/en/api" ++ ['/'] =
          str "docs/en/" ++ (str "api" ++ ['/']) := by decide
      have e2 : str "docs/en/guides" ++ r =
          str "docs/en/" ++ (str "guides" ++ r) := by
        have e3 : str "docs/en/guides" = str "docs/en/" ++ str "guides" := by
          decide
        rw [e3, List.append_assoc]
      rw [e1, e2] at hpfx
      have h9 := (List.prefix_append_right_inj (str "docs/en/")).mp hpfx
      rcases h9 with ⟨t, ht⟩
      have e4 : str "api" ++ ['/'] = 'a' :: (str "pi" ++ ['/']) := by decide
      have e5 : (str "guides" : Str) = 'g' :: str "uides" := by decide
      rw [e4, e5, List.cons_append, List.cons_append] at ht
      injection ht with h1 _
      exact absurd h1 (by decide)
    rw [ruleMatch_miss _ _ _ hne hpre]
    simp
  · intro u rules hu
    have hr : (apiRule :: rules) ≠ [] := by simp
    simp [filterUrls, if_neg hr, List.filter, keepUrl, hu]
  · intro rs₁ rs₂ u
    cases hu : urlPathname u with
    | none => simp [keepUrl, hu]
    | some p => simp [keepUrl, hu, List.any_append]

/-- Closed instantiation of `filterUrls_api_rule_semantics` on concrete
URLs: the api landing page and a direct child are kept, a deep `sdks`
descendant is kept, a deep `skills` descendant and a `guides` URL are
dropped, a malformed URL is dropped. -/
theorem filterUrls_api_rule_semantics_witness :
    filterUrls [str "https://x.com/docs/en/api"] [apiRule] =
        [str "https://x.com/docs/en/api"] ∧
    filterUrls [str "https://x.com/docs/en/api/start"] [apiRule] =
        [str "https://x.com/docs/en/api/start"] ∧
    filterUrls [str "https://x.com/docs/en/api/sdks/python/deep"] [apiRule] =
        [str "https://x.com/docs/en/api/sdks/python/deep"] ∧
    filterUrls [str "https://x.com/docs/en/api/skills/a/b"] [apiRule] = [] ∧
    filterUrls [str "https://x.com/docs/en/guides/a"] [apiRule] = [] ∧
    filterUrls [str "notaurl"] [apiRule] = [] := by
  refine ⟨?_, ?_, ?_, ?_, ?_, ?_⟩
  · exact filterUrls_api_rule_semantics.1 _ (str "/docs/en/api")
      (by decide) (by decide)
  · exact filterUrls_api_rule_semantics.2.1 _ (str "/docs/en/api/start")
      (str "start") (by decide) (by decide) (by decide) (by decide)
  · exact filterUrls_api_rule_semantics.2.2.1 _
      (str "/docs/en/api/sdks/python/deep") (str "python/deep")
      (by decide) (by decide)
  · exact filterUrls_api_rule_semantics.2.2.2.1 _
      (str "/docs/en/api/skills/a/b") (str "a/b")
      (by decide) (by decide) (by decide)
  · exact filterUrls_api_rule_semantics.2.2.2.2.1 _
      (str "/docs/en/guides/a") (str "/a") (by decide) (by decide)
  · exact filterUrls_api_rule_semantics.2.2.2.2.2.1 _ [] (by decide)

/-- C7: filtering with an empty rule list is the identity, and filtering
twice with the same rules equals filtering once. -/
theorem filterUrls_empty_identity_and_idempotent :
    (∀ urls, filterUrls urls [] = urls) ∧
    (∀ urls paths, filterUrls (filterUrls urls paths) paths =
      filterUrls urls paths) := by
  constructor
  · intro urls
    simp [filterUrls]
  · intro urls paths
    by_cases hp : paths = []
    · subst hp
      simp [filterUrls]
    · simp only [filterUrls, if_neg hp]
      rw [List.filter_filter]
      simp

/-! ## Sitemap resolution (`resolveSitemapUrls` in the sitemap module)

The XML documents produced by `cheerio XML parsing` are
modelled as parsed trees; each HTTP fetch outcome is supplied by an
environment `Str → Except Str Xml` (`.error` models a non-ok response or
a network failure thrown by `fetchSitemap`). -/

/-- A parsed XML node: an element with a tag and children, or text. -/
inductive Xml where
  | elem (tag : Str) (children : List Xml)
  | text (s : Str)

mutual

/-- Concatenated text of all descendants (cheerio `.text()`). -/
def textOf : Xml → Str
  | .text s => s
  | .elem _ cs => textOfList cs

/-- Concatenated text of a forest, in document order. -/
def textOfList : List Xml → Str
  | [] => []
  | x :: xs => textOf x ++ textOfList xs

end

mutual

/-- Does any element with tag `t` occur in the tree? -/
def hasTag (t : Str) : Xml → Bool
  | .text _ => false
  | .elem tag cs => tag = t || hasTagList t cs

/-- Does any element with tag `t` occur in the forest? -/
def hasTagList (t : Str) : List Xml → Bool
  | [] => false
  | x :: xs => hasTag t x || hasTagList t xs

end

/-- Function `isSitemapIndex` from the sitemap module: the document contains a
`sitemapindex` element. -/
def isSitemapIndex (x : Xml) : Bool := hasTag (str "sitemapindex") x

mutual

/-- Pre-order collection of the selector `url > loc` (trimmed, non-empty
text of every `loc` element whose parent is a `url` element, in document
order). -/
def urlLocs (parent : Str) : Xml → List Str
  | .text _ => []
  | .elem tag cs =>
      (if tag = str "loc" ∧ parent = str "url" then
        (let t := trimStr (textOfList cs)
         if t = [] then [] else [t])
      else []) ++ urlLocsList tag cs

/-- Collection `urlLocs` over a forest whose members share the parent tag. -/
def urlLocsList (parent : Str) : List Xml → List Str
  | [] => []
  | x :: xs => urlLocs parent x ++ urlLocsList parent xs

end

/-- Function `parseSitemapUrls` from the sitemap module. -/
def parseSitemapUrls (doc : Xml) : List Str := urlLocs (str "#root") doc

mutual

/-- Pre-order collection of the selector `sitemapindex > sitemap > loc`. -/
def indexLocs (grandparent parent : Str) : Xml → List Str
  | .text _ => []
  | .elem tag cs =>
      (if tag = str "loc" ∧ parent = str "sitemap" ∧
          grandparent = str "sitemapindex" then
        (let t := trimStr (textOfList cs)
         if t = [] then [] else [t])
      else []) ++ indexLocsList parent tag cs

/-- Collection `indexLocs` over a forest whose members share grandparent and parent
tags. -/
def indexLocsList (grandparent parent : Str) : List Xml → List Str
  | [] => []
  | x :: xs => indexLocs grandparent parent x ++ indexLocsList grandparent parent xs

end

/-- Function `parseSitemapIndexUrls` from the sitemap module. -/
def parseSitemapIndexUrls (doc : Xml) : List Str :=
  indexLocs (str "#above-root") (str "#root") doc

/-- Arguments of `resolveSitemapUrls`. -/
structure SitemapResolveArgs where
  sitemapUrl : Str
  paths : Option (List SitemapPathRule)

/-- The unfiltered URL list assembled by `resolveSitemapUrls`: for a
sitemap index, the concatenation over child sitemaps in order, a failing
child contributing `[]`; otherwise the root's own location values. -/
def sitemapAllUrls (env : Str → Except Str Xml) (xml : Xml) : List Str :=
  if isSitemapIndex xml then
    ((parseSitemapIndexUrls xml).map (fun childUrl =>
      match env childUrl with
      | .ok childXml => parseSitemapUrls childXml
      | .error _ => [])).flatten
  else parseSitemapUrls xml

/-- Function `resolveSitemapUrls` from the sitemap module, with fetch outcomes
supplied by `env`. -/
def resolveSitemapUrls (env : Str → Except Str Xml)
    (args : SitemapResolveArgs) : Except Str (List Str) :=
  match env args.sitemapUrl with
  | .error e => .error e
  | .ok xml =>
      let allUrls := sitemapAllUrls env xml
      if allUrls = [] then
        .error (str "No URLs found in sitemap: " ++ args.sitemapUrl)
      else
        match args.paths with
        | some ps => if ps = [] then .ok allUrls else .ok (filterUrls allUrls ps)
        | none => .ok allUrls

/-- C5: when the root document is a sitemap index, resolution returns the
concatenation, in child-sitemap order and in-document order, of each
child's trimmed location values, a child whose fetch fails contributing
the empty list; and it fails with the `No URLs found` diagnostic exactly
when that concatenation is empty. -/
theorem resolveSitemapUrls_index_concat (env : Str → Except Str Xml)
    (root : Str) (x : Xml) (hx : env root = .ok x)
    (hidx : isSitemapIndex x = true) :
    (sitemapAllUrls env x ≠ [] →
      resolveSitemapUrls env ⟨root, none⟩ = .ok (sitemapAllUrls env x)) ∧
    (sitemapAllUrls env x = [] →
      resolveSitemapUrls env ⟨root, none⟩ =
        .error (str "No URLs found in sitemap: " ++ root)) ∧
    sitemapAllUrls env x =
      ((parseSitemapIndexUrls x).map (fun childUrl =>
        match env childUrl with
        | .ok childXml => parseSitemapUrls childXml
        | .error _ => [])).flatten := by
  refine ⟨?_, ?_, ?_⟩
  · intro hne
    simp [resolveSitemapUrls, hx, hne]
  · intro heq
    simp [resolveSitemapUrls, hx, heq]
  · simp [sitemapAllUrls, hidx]

/-- The root sitemap-index document of the concrete resolution witness. -/
def xmlIndexDoc : Xml :=
  .elem (str "sitemapindex")
    [.elem (str "sitemap") [.elem (str "loc") [.text (str "https://s.com/a.xml")]],
     .elem (str "sitemap") [.elem (str "loc") [.text (str "https://s.com/b.xml")]]]

/-- The first child sitemap of the concrete resolution witness; the
second child's fetch fails. -/
def xmlChildDoc : Xml :=
  .elem (str "urlset")
    [.elem (str "url") [.elem (str "loc") [.text (str " https://s.com/p1 ")]],
     .elem (str "url") [.elem (str "loc") [.text (str "https://s.com/p2")]]]

/-- Fetch environment of the concrete resolution witness. -/
def envIndex : Str → Except Str Xml := fun u =>
  if u = str "https://s.com/i.xml" then .ok xmlIndexDoc
  else if u = str "https://s.com/a.xml" then .ok xmlChildDoc
  else .error (str "HTTP 500 fetching sitemap")

theorem resolveSitemapUrls_index_concat_witness :
    resolveSitemapUrls envIndex ⟨str "https://s.com/i.xml", none⟩ =
      .ok [str "https://s.com/p1", str "https://s.com/p2"] := by
  have h := (resolveSitemapUrls_index_concat envIndex (str "https://s.com/i.xml")
    xmlIndexDoc rfl rfl).1 (by decide)
  rw [h]
  rfl

/-- C9: when the root resolution yields at least one URL but the
inclusion rules exclude every one of them, `resolveSitemapUrls` succeeds
with the empty list instead of raising the `No URLs found` diagnostic:
the emptiness check runs on the unfiltered concatenation, before
filtering. -/
theorem resolveSitemapUrls_filtered_empty_succeeds
    (env : Str → Except Str Xml) (root : Str) (x : Xml)
    (ps : List SitemapPathRule) (hx : env root = .ok x) (hps : ps ≠ [])
    (hall : sitemapAllUrls env x ≠ [])
    (hfilt : filterUrls (sitemapAllUrls env x) ps = []) :
    resolveSitemapUrls env ⟨root, some ps⟩ = .ok [] := by
  simp [resolveSitemapUrls, hx, hall, if_neg hps, hfilt]

/-- Root document of the filtered-to-empty witness: a plain URL set with
one URL. -/
def xmlPlainDoc : Xml :=
  .elem (str "urlset")
    [.elem (str "url") [.elem (str "loc") [.text (str "https://y.com/blog/a")]]]

/-- Fetch environment of the filtered-to-empty witness. -/
def envPlain : Str → Except Str Xml := fun u =>
  if u = str "https://y.com/s.xml" then .ok xmlPlainDoc
  else .error (str "HTTP 404 fetching sitemap")

/-- Inclusion rule of the filtered-to-empty witness: keeps only `docs`
paths, excluding the single `blog` URL. -/
def docsOnlyRule : SitemapPathRule := { prefix_ := str "docs", subs := none }

theorem resolveSitemapUrls_filtered_empty_succeeds_witness :
    resolveSitemapUrls envPlain ⟨str "https://y.com/s.xml", some [docsOnlyRule]⟩ =
      .ok [] := by
  exact resolveSitemapUrls_filtered_empty_succeeds envPlain
    (str "https://y.com/s.xml") xmlPlainDoc [docsOnlyRule] rfl
    (by decide) (by decide) (by decide)

/-! ## URL batch fetching (`fetchUrlSource` in the url-fetcher module)

Per-URL fetch outcomes and the HTML-to-Markdown conversion are supplied
by an environment record; a `none` outcome models a rejected
`fetchPage` promise. -/

/-- Model of `new Set(urls)` spread back into an array: deduplication keeping the
first occurrence, in input order. -/
def dedupFirstGo (seen : List Str) : List Str → List Str
  | [] => []
  | u :: rest =>
      if u ∈ seen then dedupFirstGo seen rest
      else u :: dedupFirstGo (u :: seen) rest

/-- Order-preserving first-occurrence deduplication. -/
def dedupFirst (l : List Str) : List Str := dedupFirstGo [] l

/-- A fetched page: native markdown, or a parsed HTML document to be
converted (`PageData` in the url-fetcher module). -/
inductive PageData where
  | markdown (url title md : Str)
  | html (url title doc : Str)
deriving DecidableEq

/-- The page title extracted at fetch time. -/
def PageData.title : PageData → Str
  | .markdown _ t _ => t
  | .html _ t _ => t

/-- Phase 3 conversion of one page: native markdown is written as-is; an
HTML page goes through `selectContent`, chrome removal and turndown,
modelled by the environment's `convert`. -/
def PageData.render (convert : Option Str → Str → Str)
    (selector : Option Str) : PageData → Str
  | .markdown _ _ md => md
  | .html _ _ doc => convert selector doc

/-- Environment of one `fetchUrlSource` run: each unique URL's fetch
outcome (`none` = rejected), the rejection reason text, and the
HTML-to-Markdown conversion. -/
structure UrlWorld where
  fetchPage : Str → Option PageData
  fetchErr : Str → Str
  convert : Option Str → Str → Str

/-- Arguments of `fetchUrlSource` (`UrlFetchArgs` in the url-fetcher
module, minus the concurrency knob, which does not affect results). -/
structure UrlFetchArgs where
  urls : List Str
  name : Str
  outputDir : Str
  selector : Option Str

/-- Model of `path.join(outputDir, fileName)` for a relative file name. -/
def pathJoin (dir file : Str) : Str := dir ++ '/' :: file

/-- Phase 1 of `fetchUrlSource`: pair each unique URL with its fetch
outcome, in input order. -/
def fetchResultsOf (w : UrlWorld) (urls : List Str) : List (Str × Option PageData) :=
  (dedupFirst urls).map (fun u => (u, w.fetchPage u))

/-- The successfully fetched pages, in input order. -/
def pagesOf (w : UrlWorld) (urls : List Str) : List PageData :=
  (fetchResultsOf w urls).filterMap Prod.snd

/-- The per-URL failure warnings, in input order. -/
def warningsOf (w : UrlWorld) (urls : List Str) : List Str :=
  (fetchResultsOf w urls).filterMap (fun r =>
    match r.2 with
    | some _ => none
    | none => some (str "Failed to fetch " ++ r.1 ++ str ": " ++ w.fetchErr r.1))

/-- Phases 2 and 3 of `fetchUrlSource`: assign file names from the pages'
titles and write each page's Markdown. -/
def writesOf (w : UrlWorld) (args : UrlFetchArgs) : List (Str × Str) :=
  let pages := pagesOf w args.urls
  let fileNames := assignNames (stripCommonAffixes (pages.map PageData.title))
  (pages.zip fileNames).map
    (fun pf => (pathJoin args.outputDir pf.2, pf.1.render w.convert args.selector))

/-- Function `fetchUrlSource` from the url-fetcher module: deduplicate, fetch all
pages collecting per-URL failures as warnings, throw when every fetch
failed, otherwise assign file names from titles and write one file per
fetched page. Returns the write operations and the warnings. -/
def fetchUrlSource (w : UrlWorld) (args : UrlFetchArgs) :
    Except Str (List (Str × Str) × List Str) :=
  if pagesOf w args.urls = [] then
    .error (str "All URL fetches failed for " ++ args.name)
  else .ok (writesOf w args, warningsOf w args.urls)

theorem stripCommonAffixes_length (ts : List Str) :
    (stripCommonAffixes ts).length = ts.length := by
  by_cases h : ts.length ≤ 1 <;> simp [stripCommonAffixes, h]

theorem assignNamesGo_length (ts : List Str) (i : Nat) (used : List Str) :
    (assignNamesGo ts i used).length = ts.length := by
  induction ts generalizing i used with
  | nil => rfl
  | cons t rest ih => simp [assignNamesGo, ih]

theorem assignNames_length (ts : List Str) :
    (assignNames ts).length = ts.length := assignNamesGo_length ts 0 []

theorem pagesOf_length (w : UrlWorld) (urls : List Str) :
    (pagesOf w urls).length =
      ((dedupFirst urls).filter (fun u => (w.fetchPage u).isSome)).length := by
  rw [pagesOf, fetchResultsOf, List.filterMap_map]
  induction dedupFirst urls with
  | nil => rfl
  | cons u rest ih =>
      simp only [List.filterMap_cons, List.filter_cons, Function.comp]
      cases h : w.fetchPage u <;> simp [h, ih]

theorem warningsOf_eq (w : UrlWorld) (urls : List Str) :
    warningsOf w urls =
      ((dedupFirst urls).filter (fun u => (w.fetchPage u).isNone)).map
        (fun u => str "Failed to fetch " ++ u ++ str ": " ++ w.fetchErr u) := by
  rw [warningsOf, fetchResultsOf, List.filterMap_map]
  induction dedupFirst urls with
  | nil => rfl
  | cons u rest ih =>
      simp only [List.filterMap_cons, List.filter_cons, Function.comp]
      cases h : w.fetchPage u <;> simp only [List.append_assoc] at ih <;>
        simp [h, ih]

theorem writesOf_length (w : UrlWorld) (args : UrlFetchArgs) :
    (writesOf w args).length = (pagesOf w args.urls).length := by
  rw [writesOf]
  simp [List.length_zip, assignNames_length, stripCommonAffixes_length]

/-- C4: if every per-URL fetch fails, `fetchUrlSource` fails with the
aggregate diagnostic and performs zero writes; if at least one unique URL
yields content, it succeeds, performs exactly one write per successfully
fetched unique URL, and reports each failing URL as a warning. -/
theorem fetchUrlSource_partial_failure (w : UrlWorld) (args : UrlFetchArgs) :
    ((∀ u ∈ dedupFirst args.urls, w.fetchPage u = none) →
      fetchUrlSource w args =
        .error (str "All URL fetches failed for " ++ args.name)) ∧
    ((∃ u ∈ dedupFirst args.urls, (w.fetchPage u).isSome) →
      ∃ writes warnings,
        fetchUrlSource w args = .ok (writes, warnings) ∧
        writes.length =
          ((dedupFirst args.urls).filter
            (fun u => (w.fetchPage u).isSome)).length ∧
        warnings =
          ((dedupFirst args.urls).filter
            (fun u => (w.fetchPage u).isNone)).map
            (fun u => str "Failed to fetch " ++ u ++ str ": " ++
              w.fetchErr u)) := by
  constructor
  · intro hall
    have hnil : pagesOf w args.urls = [] := by
      rw [pagesOf, List.filterMap_eq_nil_iff]
      intro r hr
      rcases List.mem_map.mp hr with ⟨u, hu, rfl⟩
      exact hall u hu
    simp [fetchUrlSource, hnil]
  · intro hsome
    have hne : pagesOf w args.urls ≠ [] := by
      intro hnil
      rcases hsome with ⟨u, hu, hs⟩
      have h2 : w.fetchPage u = none :=
        (List.filterMap_eq_nil_iff.mp hnil) (u, w.fetchPage u)
          (List.mem_map.mpr ⟨u, hu, rfl⟩)
      rw [h2] at hs
      simp at hs
    refine ⟨writesOf w args, warningsOf w args.urls, ?_, ?_, ?_⟩
    · simp [fetchUrlSource, hne]
    · rw [writesOf_length, pagesOf_length]
    · exact warningsOf_eq w args.urls

/-- Environment of the partial-failure witness: two URLs, the second
failing. -/
def urlWorldPartial : UrlWorld where
  fetchPage := fun u =>
    if u = str "https://e.com/a" then
      some (.markdown (str "https://e.com/a") (str "A") (str "# A"))
    else none
  fetchErr := fun _ => str "HTTP 404"
  convert := fun _ doc => doc

/-- Arguments of the partial-failure witness. -/
def urlArgsPartial : UrlFetchArgs where
  urls := [str "https://e.com/a", str "https://e.com/b"]
  name := str "demo"
  outputDir := str "out"
  selector := none

/-- Environment of the all-failure witness: every fetch rejects. -/
def urlWorldAllFail : UrlWorld where
  fetchPage := fun _ => none
  fetchErr := fun _ => str "HTTP 500"
  convert := fun _ doc => doc

theorem fetchUrlSource_partial_failure_witness :
    fetchUrlSource urlWorldAllFail urlArgsPartial =
      .error (str "All URL fetches failed for demo") ∧
    ∃ writes warnings,
      fetchUrlSource urlWorldPartial urlArgsPartial = .ok (writes, warnings) ∧
      writes.length = 1 ∧
      warnings = [str "Failed to fetch https://e.com/b: HTTP 404"] := by
  constructor
  · have h := (fetchUrlSource_partial_failure urlWorldAllFail urlArgsPartial).1
      (fun u _ => rfl)
    rw [h]
    rfl
  · rcases (fetchUrlSource_partial_failure urlWorldPartial urlArgsPartial).2
      ⟨str "https://e.com/a", by decide, by decide⟩ with
      ⟨writes, warnings, hok, hlen, hwarn⟩
    refine ⟨writes, warnings, hok, ?_, ?_⟩
    · rw [hlen]
      decide
    · rw [hwarn]
      decide

/-! ## Git sparse checkout (`sparseCheckoutRepo` in the git module)

Subprocess outcomes are supplied by a `GitWorld` record: the remote's
default branch (if `ls-remote` succeeds and matches), and per-reference
success of the depth-1 fetch, the `FETCH_HEAD` checkout, and the
`fs.access` existence check on the requested path. -/

/-- Outcomes of the git subprocess calls and the file-system check made
by one `sparseCheckoutRepo` run. -/
structure GitWorld where
  setupErr : Option Str
  defaultBranch : Option Str
  fetchOk : Str → Bool
  fetchErr : Str → Str
  checkoutOk : Str → Bool
  checkoutErr : Str → Str
  accessOk : Str → Bool
  accessErr : Str → Str

/-- Arguments of `sparseCheckoutRepo` (`SparseCheckoutArgs`). -/
structure SparseCheckoutArgs where
  repoUrl : Str
  sourcePath : Str
  ref : Option Str
  tempDir : Str

/-- Result of `sparseCheckoutRepo` (`SparseCheckoutResult`). -/
inductive SparseCheckoutResult where
  | ok (checkoutPath : Str) (ref : Str)
  | err (error : Str)
deriving DecidableEq

/-- Path normalization at the top of `sparseCheckoutRepo`: backslashes to
slashes, trim, drop a leading `./`, strip leading and trailing slash
runs. -/
def normalizeSourcePath (p : Str) : Str :=
  let slashes := p.map (fun c => if c = '\\' then '/' else c)
  let trimmed := trimStr slashes
  let noDot :=
    if (str "./").isPrefixOf trimmed then trimmed.drop 2 else trimmed
  ((noDot.dropWhile (· = '/')).reverse.dropWhile (· = '/')).reverse

/-- First-occurrence deduplication, as `Array.from(new Set(refsToTry))`. -/
def refCandidates (w : GitWorld) (requested : Option Str) : List Str :=
  match requested with
  | some r => [r]
  | none =>
      dedupFirst ((match w.defaultBranch with
        | some d => [d]
        | none => []) ++ [str "main", str "master"])

/-- The reference loop of `sparseCheckoutRepo`: for each candidate in
order, depth-1 fetch, checkout `FETCH_HEAD`, then check that the
requested path exists; return on the first full success, remembering the
last failure diagnostic. -/
def tryRefs (w : GitWorld) (checkoutPath : Str) :
    List Str → Str → SparseCheckoutResult
  | [], lastError =>
      .err (if lastError = [] then str "Git sparse checkout failed." else lastError)
  | r :: rest, _lastError =>
      if w.fetchOk r then
        if w.checkoutOk r then
          if w.accessOk r then .ok checkoutPath r
          else tryRefs w checkoutPath rest (w.accessErr r)
        else tryRefs w checkoutPath rest (w.checkoutErr r)
      else tryRefs w checkoutPath rest (w.fetchErr r)

/-- Function `sparseCheckoutRepo` from the git module (the variant with the
`fs.access` existence check and the deduplicated
`[defaultBranch, main, master]` candidate list). -/
def sparseCheckoutRepo (w : GitWorld) (args : SparseCheckoutArgs) :
    SparseCheckoutResult :=
  let requestedRef :=
    match args.ref with
    | some r => if trimStr r = [] then none else some (trimStr r)
    | none => none
  let normalizedPath := normalizeSourcePath args.sourcePath
  let isRoot := normalizedPath = [] ∨ normalizedPath = ['.']
  match w.setupErr with
  | some e => .err e
  | none =>
      let refsToTry := refCandidates w requestedRef
      let checkoutPath :=
        if isRoot then args.tempDir else args.tempDir ++ '/' :: normalizedPath
      tryRefs w checkoutPath refsToTry []

/-- Does the candidate `r` fully succeed (fetch, checkout, path exists)? -/
def refSucceeds (w : GitWorld) (r : Str) : Bool :=
  w.fetchOk r && w.checkoutOk r && w.accessOk r

theorem tryRefs_first_success (w : GitWorld) (cp : Str) (refs : List Str)
    (le : Str) (r : Str) (hfind : refs.find? (refSucceeds w) = some r) :
    tryRefs w cp refs le = .ok cp r := by
  induction refs generalizing le with
  | nil => simp at hfind
  | cons x rest ih =>
      rw [List.find?_cons] at hfind
      by_cases hx : refSucceeds w x = true
      · rw [hx] at hfind
        simp only [Option.some.injEq] at hfind
        subst hfind
        have hsp := hx
        simp only [refSucceeds, Bool.and_eq_true] at hsp
        simp [tryRefs, hsp.1.1, hsp.1.2, hsp.2]
      · have hxf : refSucceeds w x = false := by simpa using hx
        rw [hxf] at hfind
        have hx' : ¬ (w.fetchOk x = true ∧ w.checkoutOk x = true ∧
            w.accessOk x = true) := by
          intro hc
          exact hx (by simp [refSucceeds, hc.1, hc.2.1, hc.2.2])
        simp only [tryRefs]
        by_cases h1 : w.fetchOk x = true
        · by_cases h2 : w.checkoutOk x = true
          · by_cases h3 : w.accessOk x = true
            · exact absurd ⟨h1, h2, h3⟩ hx'
            · simp only [if_pos h1, if_pos h2, if_neg h3]
              exact ih _ hfind
          · simp only [if_pos h1, if_neg h2]
            exact ih _ hfind
        · simp only [if_neg h1]
          exact ih _ hfind

/-- C2: with no explicit revision, the candidate references are the
remote's default branch followed by `main` and `master`, first-occurrence
deduplicated; the loop accepts the first candidate whose fetch, checkout
and requested-path check all succeed; in particular, when the
default-branch fetch fails and `main` fully succeeds, the run returns
success tagged with reference `main`. -/
theorem sparseCheckoutRepo_fallback_main (w : GitWorld)
    (args : SparseCheckoutArgs) (d : Str) (href : args.ref = none)
    (hsetup : w.setupErr = none) (hdb : w.defaultBranch = some d)
    (hdfail : w.fetchOk d = false) (hmf : w.fetchOk (str "main") = true)
    (hmc : w.checkoutOk (str "main") = true)
    (hma : w.accessOk (str "main") = true) :
    refCandidates w none = dedupFirst [d, str "main", str "master"] ∧
    (∀ r, ((refCandidates w none).find? (refSucceeds w)) = some r →
      ∃ p, sparseCheckoutRepo w args = .ok p r) ∧
    ∃ p, sparseCheckoutRepo w args = .ok p (str "main") := by
  have hcand : refCandidates w none = dedupFirst [d, str "main", str "master"] := by
    simp [refCandidates, hdb]
  have hrun : ∀ r, ((refCandidates w none).find? (refSucceeds w)) = some r →
      ∃ p, sparseCheckoutRepo w args = .ok p r := by
    intro r hfind
    refine ⟨if normalizeSourcePath args.sourcePath = [] ∨
        normalizeSourcePath args.sourcePath = ['.'] then args.tempDir
      else args.tempDir ++ '/' :: normalizeSourcePath args.sourcePath, ?_⟩
    simp only [sparseCheckoutRepo, href, hsetup]
    exact tryRefs_first_success w _ _ [] r hfind
  refine ⟨hcand, hrun, ?_⟩
  have hdm : d ≠ str "main" := by
    intro heq
    rw [heq, hmf] at hdfail
    exact Bool.true_eq_false.mp hdfail
  have hfind : (refCandidates w none).find? (refSucceeds w) = some (str "main") := by
    rw [hcand]
    have hdnot : refSucceeds w d = false := by
      simp [refSucceeds, hdfail]
    have hmyes : refSucceeds w (str "main") = true := by
      simp [refSucceeds, hmf, hmc, hma]
    have hmd : ¬ (str "main" = d) := fun h => hdm h.symm
    by_cases hdmast : d = str "master"
    · subst hdmast
      have hmnm : ¬ (str "main" = str "master") := by decide
      simp [dedupFirst, dedupFirstGo, hmnm, List.find?, hdnot, hmyes]
    · have hmasd : ¬ (str "master" = d) := fun h => hdmast h.symm
      have hmasm : ¬ (str "master" = str "main") := by decide
      simp [dedupFirst, dedupFirstGo, hmd, hmasd, hmasm, List.find?, hdnot,
        hmyes]
  exact hrun (str "main") hfind

/-- Git world of the fallback witness: default branch `develop` whose
fetch fails, `main` fully succeeding. -/
def gitWorldMain : GitWorld where
  setupErr := none
  defaultBranch := some (str "develop")
  fetchOk := fun r => r = str "main"
  fetchErr := fun _ => str "fatal: couldn't find remote ref"
  checkoutOk := fun _ => true
  checkoutErr := fun _ => str "checkout failed"
  accessOk := fun _ => true
  accessErr := fun _ => str "ENOENT"

/-- Arguments of the fallback witness. -/
def gitArgsMain : SparseCheckoutArgs where
  repoUrl := str "https://github.com/acme/docs.git"
  sourcePath := str "docs"
  ref := none
  tempDir := str "/tmp/docpup-x"

theorem sparseCheckoutRepo_fallback_main_witness :
    refCandidates gitWorldMain none =
      [str "develop", str "main", str "master"] ∧
    ∃ p, sparseCheckoutRepo gitWorldMain gitArgsMain = .ok p (str "main") := by
  have h := sparseCheckoutRepo_fallback_main gitWorldMain gitArgsMain
    (str "develop") rfl rfl rfl (by decide) (by decide) rfl rfl
  refine ⟨?_, h.2.2⟩
  rw [h.1]
  decide

/-! ## Per-URL retrieval with the markdown-suffix probe

The current url-fetcher module's `toMdUrl` helper and the step-2 probe of
the per-URL retrieval are exercised by `tests/url-fetcher.test.ts` but the
implementing source file is not present; they are modelled from the spec
(§4.3 step 2) below. -/

/-- The path portion of a URL string, up to the first `?` or `#`. -/
def urlPathPart (url : Str) : Str :=
  url.takeWhile (fun c => !(c = '?' || c = '#'))

/-- The query-string-and-fragment portion of a URL string. -/
def urlQhPart (url : Str) : Str := url.drop (urlPathPart url).length

/-- Modelled from the spec: `toMdUrl` of the current url-fetcher module
(missing from `src/`; referenced only by `tests/url-fetcher.test.ts`).
Derive a markdown-suffixed candidate by replacing a trailing HTML-family
extension (`.html`, `.htm`) with `.md`, or appending `.md` if
extensionless after stripping a trailing separator; skip (return `none`)
if already markdown-suffixed; preserve query string and fragment. -/
def toMdUrl (url : Str) : Option Str :=
  let pathPart := urlPathPart url
  let qh := urlQhPart url
  if (str ".md").isSuffixOf pathPart then none
  else if (str ".html").isSuffixOf pathPart then
    some (pathPart.take (pathPart.length - 5) ++ str ".md" ++ qh)
  else if (str ".htm").isSuffixOf pathPart then
    some (pathPart.take (pathPart.length - 4) ++ str ".md" ++ qh)
  else
    some ((pathPart.reverse.dropWhile (· = '/')).reverse ++ str ".md" ++ qh)

/-- Outcomes of the three per-URL fetch attempts: `negotiated` is `some`
only when the content-negotiated request succeeds AND declares a markdown
content kind; `probe` is `some` whenever the request succeeds, regardless
of declared content kind; `htmlFetch` throws on failure. -/
structure FetchWorld where
  negotiated : Str → Option Str
  probe : Str → Option Str
  htmlFetch : Str → Except Str (Str × Str)

/-- One page's retrieval result. -/
inductive PageFetch where
  | markdownPage (body : Str)
  | htmlPage (title doc : Str)
deriving DecidableEq

/-- Modelled from the spec: the per-URL retrieval of the current
url-fetcher module (missing from `src/`) — step 1 content-negotiated
markdown, step 2 markdown-suffixed candidate probe, step 3 HTML fetch. -/
def fetchPageSteps (w : FetchWorld) (url : Str) : Except Str PageFetch :=
  match w.negotiated url with
  | some md => .ok (.markdownPage md)
  | none =>
      match toMdUrl url with
      | some mdUrl =>
          match w.probe mdUrl with
          | some body => .ok (.markdownPage body)
          | none =>
              match w.htmlFetch url with
              | .ok td => .ok (.htmlPage td.1 td.2)
              | .error e => .error e
      | none =>
          match w.htmlFetch url with
          | .ok td => .ok (.htmlPage td.1 td.2)
          | .error e => .error e

/-- C3: when the content-negotiated markdown fetch misses and the URL
does not already carry a markdown suffix, the retrieval derives a
markdown-suffixed candidate (replacing a trailing HTML-family extension,
or appending `.md` after stripping a trailing separator), probes it,
accepts the body of a successful probe regardless of declared content
kind, and only falls back to the HTML fetch when the probe also
misses. -/
theorem fetchPageSteps_md_suffix_probe (w : FetchWorld) (url : Str)
    (hneg : w.negotiated url = none)
    (hnmd : (str ".md").isSuffixOf (urlPathPart url) = false) :
    (∃ m, toMdUrl url = some m) ∧
    (∀ m body, toMdUrl url = some m → w.probe m = some body →
      fetchPageSteps w url = .ok (.markdownPage body)) ∧
    (∀ m, toMdUrl url = some m → w.probe m = none →
      fetchPageSteps w url =
        (match w.htmlFetch url with
         | .ok td => .ok (.htmlPage td.1 td.2)
         | .error e => .error e)) ∧
    ((str ".html").isSuffixOf (urlPathPart url) = true →
      toMdUrl url = some ((urlPathPart url).take ((urlPathPart url).length - 5)
        ++ str ".md" ++ urlQhPart url)) ∧
    ((str ".html").isSuffixOf (urlPathPart url) = false →
      (str ".htm").isSuffixOf (urlPathPart url) = false →
      toMdUrl url = some (((urlPathPart url).reverse.dropWhile (· = '/')).reverse
        ++ str ".md" ++ urlQhPart url)) := by
  refine ⟨?_, ?_, ?_, ?_, ?_⟩
  · by_cases h1 : (str ".html").isSuffixOf (urlPathPart url) = true
    · exact ⟨(urlPathPart url).take ((urlPathPart url).length - 5) ++
        str ".md" ++ urlQhPart url, by simp [toMdUrl, hnmd, h1]⟩
    · by_cases h2 : (str ".htm").isSuffixOf (urlPathPart url) = true
      · exact ⟨(urlPathPart url).take ((urlPathPart url).length - 4) ++
          str ".md" ++ urlQhPart url, by simp [toMdUrl, hnmd, h1, h2]⟩
      · exact ⟨((urlPathPart url).reverse.dropWhile (· = '/')).reverse ++
          str ".md" ++ urlQhPart url, by simp [toMdUrl, hnmd, h1, h2]⟩
  · intro m body hm hb
    simp [fetchPageSteps, hneg, hm, hb]
  · intro m hm hb
    simp [fetchPageSteps, hneg, hm, hb]
  · intro h1
    simp [toMdUrl, hnmd, h1]
  · intro h1 h2
    simp [toMdUrl, hnmd, h1, h2]

/-- Fetch environment of the probe witness: content negotiation always
misses, the `.md` candidate of the `.html` page serves a plain-text body,
HTML fetch would succeed but must not be reached. -/
def fetchWorldProbe : FetchWorld where
  negotiated := fun _ => none
  probe := fun m =>
    if m = str "https://example.com/docs/overview.md" then
      some (str "# Overview from md url")
    else none
  htmlFetch := fun _ => .ok (str "Overview", str "<main>html</main>")

theorem fetchPageSteps_md_suffix_probe_witness :
    toMdUrl (str "https://example.com/docs/overview.html") =
      some (str "https://example.com/docs/overview.md") ∧
    fetchPageSteps fetchWorldProbe (str "https://example.com/docs/overview.html") =
      .ok (.markdownPage (str "# Overview from md url")) := by
  have h := fetchPageSteps_md_suffix_probe fetchWorldProbe
    (str "https://example.com/docs/overview.html") rfl (by decide)
  constructor
  · have h4 := h.2.2.2.1 (by decide)
    rw [h4]
    decide
  · exact h.2.1 (str "https://example.com/docs/overview.md")
      (str "# Overview from md url") (by decide) (by decide)

/-! ## Path containment (`resolveInside` in `utils.ts`, used by
`runSphinxPreprocess` and `runHtmlPreprocess`)

POSIX path semantics of `path.resolve` / `path.relative` /
`path.isAbsolute` are modelled on component lists; the checkout root is
an absolute path (it comes from `mkdtemp` under the OS temp directory),
so no working-directory prepending is needed. -/

/-- One step of POSIX path normalization over components: drop empty and
`.` components, pop on `..`, keep the rest. -/
def normStep (acc : List Str) (c : Str) : List Str :=
  if c = [] ∨ c = ['.'] then acc
  else if c = ['.', '.'] then acc.dropLast
  else acc ++ [c]

/-- Normalized component list of an absolute path string. -/
def normParts (s : Str) : List Str := (splitSlash s).foldl normStep []

/-- Rebuild an absolute path string from normalized components. -/
def joinAbs (parts : List Str) : Str := '/' :: List.intercalate ['/'] parts

/-- Model of `path.resolve(base, ...segments)` for an absolute `base`: process
left to right, restarting at any absolute segment, then normalize. -/
def resolveChain (base : Str) (segments : List Str) : Str :=
  let raw := segments.foldl
    (fun acc p => if p.headD ' ' = '/' then p else acc ++ '/' :: p) base
  joinAbs (normParts raw)

/-- Strip the common component prefix of two component lists. -/
def dropCommon : List Str → List Str → List Str × List Str
  | a :: as, b :: bs =>
      if a = b then dropCommon as bs else (a :: as, b :: bs)
  | as, bs => (as, bs)

/-- Model of `path.relative(fromP, toP)` for absolute arguments: strip the common
component prefix, one `..` per remaining source component, then the
remaining target components. -/
def relativePosix (fromP toP : Str) : Str :=
  let pr := dropCommon (normParts fromP) (normParts toP)
  List.intercalate ['/'] (pr.1.map (fun _ => str "..") ++ pr.2)

/-- Function `resolveInside` from `utils.ts`: resolve the segments against the
root and throw when the relative path from the root starts with `..` or
is absolute. -/
def resolveInside (root : Str) (segments : List Str) : Except Str Str :=
  let resolved := resolveChain root segments
  let relative := relativePosix root resolved
  if (str "..").isPrefixOf relative ∨ relative.headD ' ' = '/' then
    .error (str "Resolved path escapes root: " ++ resolved)
  else .ok resolved

/-- The two `resolveInside` calls shared by `runSphinxPreprocess` and
`runHtmlPreprocess`: resolve `workDir` and `outputDir` inside the
checkout root, propagating the escape error. -/
def preprocessDirs (checkoutRoot workDir outputDir : Str) :
    Except Str (Str × Str) :=
  match resolveInside checkoutRoot [workDir] with
  | .error e => .error e
  | .ok w =>
      match resolveInside checkoutRoot [outputDir] with
      | .error e => .error e
      | .ok o => .ok (w, o)

/-- A normalized path component: non-empty, not a dot component, and
slash-free. -/
def goodComp (c : Str) : Prop :=
  c ≠ [] ∧ c ≠ ['.'] ∧ c ≠ ['.', '.'] ∧ '/' ∉ c

theorem splitSlash_no_slash (s : Str) : ∀ c ∈ splitSlash s, '/' ∉ c := by
  induction s with
  | nil =>
      intro c hc
      simp [splitSlash] at hc
      simp [hc]
  | cons x xs ih =>
      intro c hc
      by_cases hx : x = '/'
      · subst hx
        have hsp2 : splitSlash ('/' :: xs) = [] :: splitSlash xs := by
          simp [splitSlash]
        rw [hsp2] at hc
        rcases List.mem_cons.mp hc with h | h
        · subst h
          simp
        · exact ih c h
      · simp only [splitSlash, if_neg hx] at hc
        cases hsp : splitSlash xs with
        | nil => exact absurd hsp (splitSlash_ne_nil xs)
        | cons h0 t0 =>
            rw [hsp] at hc
            simp only [List.mem_cons] at hc
            rcases hc with h | h
            · subst h
              intro hmem
              rcases List.mem_cons.mp hmem with h1 | h1
              · exact hx h1.symm
              · exact ih h0 (by rw [hsp]; exact List.mem_cons_self h0 t0) h1
            · exact ih c (by rw [hsp]; exact List.mem_cons_of_mem h0 h)

theorem foldl_normStep_good (l : List Str) (hl : ∀ c ∈ l, '/' ∉ c) :
    ∀ acc, (∀ x ∈ acc, goodComp x) →
      ∀ x ∈ l.foldl normStep acc, goodComp x := by
  induction l with
  | nil =>
      intro acc hacc x hx
      exact hacc x hx
  | cons c t ih =>
      intro acc hacc x hx
      have hc : '/' ∉ c := hl c (List.mem_cons_self c t)
      have ht : ∀ d ∈ t, '/' ∉ d := fun d hd => hl d (List.mem_cons_of_mem c hd)
      refine ih ht (normStep acc c) ?_ x hx
      intro y hy
      by_cases h1 : c = [] ∨ c = ['.']
      · rw [normStep, if_pos h1] at hy
        exact hacc y hy
      · by_cases h2 : c = ['.', '.']
        · rw [normStep, if_neg h1, if_pos h2] at hy
          exact hacc y (List.dropLast_subset acc hy)
        · rw [normStep, if_neg h1, if_neg h2] at hy
          rcases List.mem_append.mp hy with h | h
          · exact hacc y h
          · have hyc : y = c := by simpa using h
            subst hyc
            refine ⟨?_, ?_, h2, hc⟩
            · intro hh
              exact h1 (Or.inl hh)
            · intro hh
              exact h1 (Or.inr hh)

theorem foldl_normStep_id (l : List Str) (hl : ∀ x ∈ l, goodComp x) :
    ∀ acc, l.foldl normStep acc = acc ++ l := by
  induction l with
  | nil => intro acc; simp
  | cons c t ih =>
      intro acc
      have hc := hl c (List.mem_cons_self c t)
      have ht : ∀ d ∈ t, goodComp d := fun d hd => hl d (List.mem_cons_of_mem c hd)
      have hstep : normStep acc c = acc ++ [c] := by
        rw [normStep, if_neg (by
          intro h
          rcases h with h | h
          · exact hc.1 h
          · exact hc.2.1 h), if_neg hc.2.2.1]
      simp only [List.foldl_cons, hstep, ih ht]
      simp

theorem intercalate_cons_cons (x y : Str) (t : List Str) :
    List.intercalate ['/'] (x :: y :: t) =
      x ++ '/' :: List.intercalate ['/'] (y :: t) := by
  simp [List.intercalate, List.intersperse]

theorem splitSlash_intercalate (l : List Str) (hne : l ≠ [])
    (hl : ∀ x ∈ l, '/' ∉ x) :
    splitSlash (List.intercalate ['/'] l) = l := by
  induction l with
  | nil => exact absurd rfl hne
  | cons x t ih =>
      cases t with
      | nil =>
          have hx : ∀ c ∈ x, c ≠ '/' := by
            intro c hc heq
            exact hl x (List.mem_cons_self x []) (heq ▸ hc)
          simp [List.intercalate, List.intersperse, splitSlash_noslash x hx]
      | cons y t2 =>
          rw [intercalate_cons_cons]
          have hx : ∀ c ∈ x, c ≠ '/' := by
            intro c hc heq
            exact hl x (List.mem_cons_self x (y :: t2)) (heq ▸ hc)
          rw [splitSlash_append_slash x _ hx]
          rw [ih (by simp) (fun d hd => hl d (List.mem_cons_of_mem x hd))]

theorem normParts_joinAbs (l : List Str) (hl : ∀ x ∈ l, goodComp x) :
    normParts (joinAbs l) = l := by
  cases l with
  | nil => rfl
  | cons x t =>
      rw [normParts, joinAbs]
      have hsp : splitSlash ('/' :: List.intercalate ['/'] (x :: t)) =
          [] :: splitSlash (List.intercalate ['/'] (x :: t)) := by
        simp [splitSlash]
      rw [hsp, splitSlash_intercalate (x :: t) (by simp)
        (fun d hd => (hl d hd).2.2.2)]
      have h0 : normStep [] [] = [] := by rfl
      rw [List.foldl_cons, h0, foldl_normStep_id (x :: t) hl []]
      rfl

theorem dropCommon_fst_nil (f t : List Str)
    (h : (dropCommon f t).1 = []) : f <+: t := by
  induction f generalizing t with
  | nil => exact List.nil_prefix
  | cons a as ih =>
      cases t with
      | nil => simp [dropCommon] at h
      | cons b bs =>
          by_cases hab : a = b
          · subst hab
            have heq : dropCommon (a :: as) (a :: bs) = dropCommon as bs := by
              simp [dropCommon]
            rw [heq] at h
            exact List.cons_prefix_cons.mpr ⟨rfl, ih bs h⟩
          · have heq : dropCommon (a :: as) (b :: bs) = (a :: as, b :: bs) := by
              simp [dropCommon, hab]
            rw [heq] at h
            simp at h

theorem isPrefixOf_intercalate_dots (rest : List Str) :
    (str "..").isPrefixOf
      (List.intercalate ['/'] (str ".." :: rest)) = true := by
  cases rest with
  | nil =>
      rw [List.isPrefixOf_iff_prefix]
      simp [List.intercalate, List.intersperse]
  | cons y t =>
      rw [intercalate_cons_cons]
      exact isPrefixOf_append_self _ _

theorem resolveInside_ok_inside (root : Str) (segs : List Str) (p : Str)
    (h : resolveInside root segs = .ok p) :
    normParts root <+: normParts p := by
  by_cases hc : ((str "..").isPrefixOf
      (relativePosix root (resolveChain root segs)) = true ∨
      (relativePosix root (resolveChain root segs)).headD ' ' = '/')
  · simp only [resolveInside] at h
    rw [if_pos hc] at h
    exact absurd h (by simp)
  · simp only [resolveInside] at h
    rw [if_neg hc] at h
    have hp : resolveChain root segs = p := by
      injection h
    have hgood : ∀ x ∈ normParts (segs.foldl
        (fun acc q => if q.headD ' ' = '/' then q else acc ++ '/' :: q) root),
        goodComp x :=
      foldl_normStep_good _ (splitSlash_no_slash _) [] (by simp)
    have hTnorm : normParts (resolveChain root segs) =
        normParts (segs.foldl
          (fun acc q => if q.headD ' ' = '/' then q else acc ++ '/' :: q) root) := by
      simp only [resolveChain]
      exact normParts_joinAbs _ hgood
    cases hd : (dropCommon (normParts root)
        (normParts (resolveChain root segs))).1 with
    | nil =>
        rw [← hp, hTnorm]
        rw [hTnorm] at hd
        exact dropCommon_fst_nil _ _ hd
    | cons c cs =>
        exfalso
        apply hc
        left
        have hrel : relativePosix root (resolveChain root segs) =
            List.intercalate ['/'] (str ".." ::
              (cs.map (fun _ => str "..") ++
                (dropCommon (normParts root)
                  (normParts (resolveChain root segs))).2)) := by
          simp only [relativePosix, hd]
          simp
        rw [hrel]
        exact isPrefixOf_intercalate_dots _

/-- C10: for every checkout root and every `workDir`/`outputDir` value of
an HTML or Sphinx preprocessing directive, the resolved working and
output directories lie inside the checkout root: `resolveInside` returns
the escape error for any segment combination whose resolution (via `..`
segments or an absolute path) falls outside the root, so whenever the
preprocessing's two `resolveInside` calls succeed, both returned
directories extend the root's normalized components. -/
theorem resolveInside_confines_preprocess_dirs :
    (∀ root segs p, resolveInside root segs = .ok p →
      normParts root <+: normParts p) ∧
    (∀ root wd od w o, preprocessDirs root wd od = .ok (w, o) →
      normParts root <+: normParts w ∧ normParts root <+: normParts o) := by
  constructor
  · exact resolveInside_ok_inside
  · intro root wd od w o h
    rw [preprocessDirs] at h
    cases hw : resolveInside root [wd] with
    | error e =>
        rw [hw] at h
        exact absurd h (by simp)
    | ok w0 =>
        rw [hw] at h
        cases ho : resolveInside root [od] with
        | error e =>
            rw [ho] at h
            exact absurd h (by simp)
        | ok o0 =>
            rw [ho] at h
            simp only [Except.ok.injEq, Prod.mk.injEq] at h
            rcases h with ⟨rfl, rfl⟩
            exact ⟨resolveInside_ok_inside root [wd] w0 hw,
              resolveInside_ok_inside root [od] o0 ho⟩

theorem resolveInside_confines_preprocess_dirs_witness :
    (normParts (str "/repo") <+: normParts (str "/repo/docs") ∧
      normParts (str "/repo") <+: normParts (str "/repo/docpup-build")) ∧
    resolveInside (str "/repo") [str "../../etc"] =
      .error (str "Resolved path escapes root: /etc") := by
  refine ⟨?_, by rfl⟩
  exact resolveInside_confines_preprocess_dirs.2 (str "/repo") (str "docs")
    (str "docpup-build") (str "/repo/docs") (str "/repo/docpup-build")
    (by rfl)

end Docpup
